import Mathlib

/-!
# Verification of `ParallelNaiveKMeans::Iterate`
(`src/mlpack/methods/kmeans/parallel_naive_kmeans_impl.hpp`)

Shallow embedding of one Lloyd iteration of parallel naive k-means.

Modelling conventions:
* A point / centroid column is a `List ℚ` (exact arithmetic stands in for
  `double`; the claims under scrutiny concern the exact-arithmetic,
  non-NaN-metric behaviour, which ℚ captures).
* A matrix (`arma::mat`, column major) is its list of columns,
  `List (List ℚ)`; the number of rows (`n_rows`) is carried separately as `d`
  where needed, since an Armadillo matrix knows its row count even with zero
  columns.
* The pluggable metric (`MetricType::Evaluate`, a template parameter whose
  implementations live outside this source file) is a parameter
  `μ : List ℚ → List ℚ → ℚ`.  `sqDist` below is a concrete instance
  (squared Euclidean distance, mlpack `LMetric<2, false>`) used to
  instantiate theorems.
* The loop variable `minDistance` starts at
  `std::numeric_limits<double>::infinity()`, modelled by `(⊤ : WithTop ℚ)`;
  every evaluated distance is a finite value coerced into `WithTop ℚ`.
* The statement `Log::Assert(closestCluster != centroids.n_cols)` is fatal on
  failure, so the full call `Iterate` returns an `Option`: `none` models the
  aborted call, and `IterateCore` is the result of a completed call.
* The per-call increment of the `distanceCalculations` member is modelled by
  passing the counter value in (`dc0`) and returning the updated value.
-/

namespace ParallelNaiveKMeans

/-- A point or centroid column: a `D`-dimensional vector of exact scalars. -/
abbrev Vec := List ℚ

/-- A matrix as its list of columns (Armadillo is column major). -/
abbrev Mat := List Vec

/-- Component-wise vector addition (`localCentroids.col(j) += dataset.col(i)`
and `newCentroids += localCentroids`). -/
def vecAdd (a b : Vec) : Vec := List.zipWith (· + ·) a b

/-- The zero vector of dimension `d` (`arma::fill::zeros` on a column). -/
def vecZero (d : ℕ) : Vec := List.replicate d 0

/-- Division of a column by a count (`newCentroids.col(i) /= counts(i)`). -/
def vecDivNat (v : Vec) (c : ℕ) : Vec := v.map (· / (c : ℚ))

/-- Squared Euclidean distance, a concrete metric instance: the `MetricType`
template parameter's implementations are not part of this source file;
mlpack's `LMetric<2, false>` computes exactly this. -/
def sqDist (a b : Vec) : ℚ := (List.zipWith (fun x y => (x - y) ^ 2) a b).sum

/-- Inner centroid scan of `Iterate`, processing the remaining centroid
columns `cs` whose first element has index `j`, threading the loop state
`(closestCluster, minDistance)`:

```
for (size_t j = 0; j < centroids.n_cols; j++) {
  const double distance = metric.Evaluate(dataset.col(i), centroids.col(j));
  if (distance < minDistance) { minDistance = distance; closestCluster = j; }
}
```
-/
def scanFrom (μ : Vec → Vec → ℚ) (p : Vec) :
    List Vec → ℕ → ℕ × WithTop ℚ → ℕ × WithTop ℚ
  | [], _, s => s
  | c :: cs, j, s =>
      scanFrom μ p cs (j + 1)
        (if (μ p c : WithTop ℚ) < s.2 then (j, (μ p c : WithTop ℚ)) else s)

/-- Full scan for one point: state initialised to `minDistance = infinity`
and `closestCluster = centroids.n_cols` (the invalid sentinel). -/
def scanCentroids (μ : Vec → Vec → ℚ) (p : Vec) (cent : Mat) : ℕ × WithTop ℚ :=
  scanFrom μ p cent 0 (cent.length, ⊤)

/-- The centroid index selected for point `p` (the value of `closestCluster`
after the inner loop). -/
def closestCluster (μ : Vec → Vec → ℚ) (p : Vec) (cent : Mat) : ℕ :=
  (scanCentroids μ p cent).1

/-- A pair of accumulators: per-cluster sums (a `D×K` matrix of column sums)
and per-cluster counts (a length-`K` vector).  Used both for the thread-local
pair `(localCentroids, localCounts)` and for the shared pair
`(newCentroids, counts)` before normalisation. -/
structure Accum where
  sums : Mat
  counts : List ℕ
deriving Repr, DecidableEq

/-- Zero-initialised accumulator of shape `(D×K, K)`
(`arma::fill::zeros` on both members). -/
def initAccum (d K : ℕ) : Accum :=
  ⟨List.replicate K (vecZero d), List.replicate K 0⟩

/-- Processing of one point: find its closest centroid `j`, add the point
into column `j` of the sums, increment count `j`
(`localCentroids.col(closestCluster) += arma::vec(dataset.col(i));
localCounts(closestCluster)++`). -/
def addPoint (μ : Vec → Vec → ℚ) (cent : Mat) (a : Accum) (p : Vec) : Accum :=
  let j := closestCluster μ p cent
  ⟨a.sums.set j (vecAdd (a.sums.getD j []) p),
   a.counts.set j (a.counts.getD j 0 + 1)⟩

/-- Accumulation of a range of points into an accumulator (the body of the
parallel-for, run over one thread's chunk of the dataset). -/
def accumulate (μ : Vec → Vec → ℚ) (cent : Mat) (data : Mat) (a : Accum) :
    Accum :=
  data.foldl (addPoint μ cent) a

/-- The sublist of dataset points whose selected nearest centroid is `i`. -/
def assignedTo (μ : Vec → Vec → ℚ) (cent : Mat) (i : ℕ) (data : Mat) : Mat :=
  data.filter fun p => closestCluster μ p cent == i

/-- Normalisation (finalization phase):

```
for (size_t i = 0; i < centroids.n_cols; ++i)
  if (counts(i) != 0)
    newCentroids.col(i) /= counts(i);
```
A column with count zero is left untouched, still the zero vector. -/
def normalize (a : Accum) : Mat :=
  List.zipWith (fun col c => if c ≠ 0 then vecDivNat col c else col)
    a.sums a.counts

/-- Accumulated squared centroid displacement:

```
double cNorm = 0.0;
for (size_t i = 0; i < centroids.n_cols; ++i)
  cNorm += std::pow(metric.Evaluate(centroids.col(i), newCentroids.col(i)), 2.0);
```
The scalar returned by `Iterate` is `std::sqrt(cNorm)`. -/
def cNorm (μ : Vec → Vec → ℚ) (cent newCent : Mat) : ℚ :=
  (List.range cent.length).foldl
    (fun acc i => acc + μ (cent.getD i []) (newCent.getD i []) ^ 2) 0

/-- Result of one completed call to `Iterate`: the output buffers
`newCentroids` and `counts`, the squared distortion `cNorm` (the function's
double return value is `√cNorm`), and the updated `distanceCalculations`
counter. -/
structure IterResult where
  newCentroids : Mat
  counts : List ℕ
  cNorm : ℚ
  distanceCalculations : ℕ
deriving Repr, DecidableEq

/-- Predicate stating that `Log::Assert(closestCluster != centroids.n_cols)`
passes for every point of the dataset. -/
def assertionOK (μ : Vec → Vec → ℚ) (data cent : Mat) : Bool :=
  data.all fun p => closestCluster μ p cent != cent.length

/-- Result of a completed call of `ParallelNaiveKMeans::Iterate` (sequential
semantics; the chunked version is `IterateParCore` below).  `d` is
`centroids.n_rows` and `dc0` the value of the `distanceCalculations` member
on entry. -/
def IterateCore (μ : Vec → Vec → ℚ) (d : ℕ) (data cent : Mat) (dc0 : ℕ) :
    IterResult :=
  let K := cent.length
  let acc := accumulate μ cent data (initAccum d K)
  let newC := normalize acc
  ⟨newC, acc.counts, cNorm μ cent newC, dc0 + K * data.length + K⟩

/-- One call of `ParallelNaiveKMeans::Iterate`; `none` models the fatal
`Log::Assert` abort, possible only when some point selects no centroid. -/
def Iterate (μ : Vec → Vec → ℚ) (d : ℕ) (data cent : Mat) (dc0 : ℕ) :
    Option IterResult :=
  if assertionOK μ data cent then some (IterateCore μ d data cent dc0)
  else none

/-- Call of `Iterate` as actually made: the caller passes mutable output
buffers `newCentroids` and `counts` by reference, and the call begins by
resizing and zero-filling both (`newCentroids.zeros(centroids.n_rows,
centroids.n_cols); counts.zeros(centroids.n_cols);`), so their prior
contents are discarded. -/
def IterateWithBuffers (initNewCentroids : Mat) (initCounts : List ℕ)
    (μ : Vec → Vec → ℚ) (d : ℕ) (data cent : Mat) (dc0 : ℕ) :
    Option IterResult :=
  let zeroedNewCentroids : Mat := List.replicate cent.length (vecZero d)
  let zeroedCounts : List ℕ := List.replicate cent.length 0
  have _ : zeroedNewCentroids = List.replicate cent.length (vecZero d) := rfl
  have _ : zeroedCounts = List.replicate cent.length 0 := rfl
  Iterate μ d data cent dc0

/-- Merging of one thread's private accumulator into the shared one
(`#pragma omp critical { newCentroids += localCentroids;
counts += localCounts; }`). -/
def mergeAccum (a b : Accum) : Accum :=
  ⟨List.zipWith vecAdd a.sums b.sums, List.zipWith (· + ·) a.counts b.counts⟩

/-- The parallel accumulation: each chunk (one worker's contiguous range of
points) is accumulated into a private zero-initialised accumulator, and all
private accumulators are merged into the shared zero-initialised one. -/
def parallelAccum (μ : Vec → Vec → ℚ) (cent : Mat) (d : ℕ)
    (chunks : List Mat) : Accum :=
  chunks.foldl
    (fun shared chunk =>
      mergeAccum shared (accumulate μ cent chunk (initAccum d cent.length)))
    (initAccum d cent.length)

/-- Result of a completed call of `Iterate` with the assignment phase split
over worker chunks: identical to `IterateCore` except that the accumulation
is performed chunk-wise with private accumulators merged at the end. -/
def IterateParCore (μ : Vec → Vec → ℚ) (d : ℕ) (chunks : List Mat)
    (cent : Mat) (dc0 : ℕ) : IterResult :=
  let K := cent.length
  let acc := parallelAccum μ cent d chunks
  let newC := normalize acc
  ⟨newC, acc.counts, cNorm μ cent newC, dc0 + K * chunks.flatten.length + K⟩

/-- Chunked call of `Iterate`, with the same fatal-assertion behaviour. -/
def IteratePar (μ : Vec → Vec → ℚ) (d : ℕ) (chunks : List Mat) (cent : Mat)
    (dc0 : ℕ) : Option IterResult :=
  if assertionOK μ chunks.flatten cent then
    some (IterateParCore μ d chunks cent dc0)
  else none

/-- Arithmetic mean of a list of `d`-dimensional points: component-wise sum
divided by the number of points (spec §4.3 / §8). -/
def meanOf (d : ℕ) (ps : List Vec) : Vec :=
  vecDivNat (ps.foldl vecAdd (vecZero d)) ps.length

/-- Shape invariant of an accumulator of nominal shape `(D×K, K)`: `K` sum
columns of dimension at most `d`, and `K` counts. -/
def AccumWF (d K : ℕ) (a : Accum) : Prop :=
  a.sums.length = K ∧ a.counts.length = K ∧ ∀ col ∈ a.sums, col.length ≤ d

/-! ## Basic vector lemmas -/

lemma length_vecAdd (a b : Vec) : (vecAdd a b).length = min a.length b.length :=
  List.length_zipWith _ _ _

lemma vecAdd_assoc (a b c : Vec) :
    vecAdd (vecAdd a b) c = vecAdd a (vecAdd b c) := by
  induction a generalizing b c with
  | nil => simp [vecAdd]
  | cons x xs ih =>
    cases b with
    | nil => simp [vecAdd]
    | cons y ys =>
      cases c with
      | nil => simp [vecAdd]
      | cons z zs =>
        simp only [vecAdd, List.zipWith_cons_cons, List.cons.injEq] at *
        exact ⟨add_assoc x y z, ih ys zs⟩

lemma vecAdd_zero_left {d : ℕ} {v : Vec} (h : v.length ≤ d) :
    vecAdd (vecZero d) v = v := by
  induction v generalizing d with
  | nil => simp [vecAdd]
  | cons x xs ih =>
    cases d with
    | zero => simp at h
    | succ d' =>
      simp only [vecAdd, vecZero, List.replicate_succ, List.zipWith_cons_cons,
        zero_add]
      exact congrArg _ (ih (by simpa using h))

lemma vecAdd_zero_right {d : ℕ} {v : Vec} (h : v.length ≤ d) :
    vecAdd v (vecZero d) = v := by
  induction v generalizing d with
  | nil => simp [vecAdd]
  | cons x xs ih =>
    cases d with
    | zero => simp at h
    | succ d' =>
      simp only [vecAdd, vecZero, List.replicate_succ, List.zipWith_cons_cons,
        add_zero]
      exact congrArg _ (ih (by simpa using h))

lemma length_vecAdd_le_left (a b : Vec) : (vecAdd a b).length ≤ a.length := by
  rw [length_vecAdd]; exact min_le_left _ _

lemma length_vecDivNat (v : Vec) (c : ℕ) : (vecDivNat v c).length = v.length :=
  List.length_map _ _

/-! ## getD helpers -/

lemma getD_set_self {α : Type*} {l : List α} {j : ℕ} (h : j < l.length)
    (v dflt : α) : (l.set j v).getD j dflt = v := by
  rw [List.getD_eq_getElem?_getD, List.getElem?_set]
  simp [h]

lemma getD_set_ne {α : Type*} {l : List α} {i j : ℕ} (h : j ≠ i)
    (v : α) (dflt : α) : (l.set j v).getD i dflt = l.getD i dflt := by
  rw [List.getD_eq_getElem?_getD, List.getElem?_set, if_neg h,
    ← List.getD_eq_getElem?_getD]

/-! ## The inner scan: the selected index is the least argmin -/

lemma scanFrom_go (μ : Vec → Vec → ℚ) (p : Vec) :
    ∀ (cs : List Vec) (j0 b : ℕ) (q : ℚ),
      ((scanFrom μ p cs j0 (b, (q : WithTop ℚ)) = (b, (q : WithTop ℚ))) ∧
        ∀ k < cs.length, q ≤ μ p (cs.getD k [])) ∨
      (∃ k, k < cs.length ∧
        (scanFrom μ p cs j0 (b, (q : WithTop ℚ)) =
          (j0 + k, (μ p (cs.getD k []) : WithTop ℚ))) ∧
        μ p (cs.getD k []) < q ∧
        (∀ m < cs.length, μ p (cs.getD k []) ≤ μ p (cs.getD m [])) ∧
        ∀ m < k, μ p (cs.getD k []) < μ p (cs.getD m [])) := by
  intro cs
  induction cs with
  | nil =>
    intro j0 b q
    refine Or.inl ⟨rfl, fun k hk => ?_⟩
    simp at hk
  | cons c cs ih =>
    intro j0 b q
    simp only [scanFrom]
    by_cases hlt : μ p c < q
    · rw [if_pos (WithTop.coe_lt_coe.mpr hlt)]
      rcases ih (j0 + 1) j0 (μ p c) with ⟨heq, hmin⟩ | ⟨k, hk, heq, hlt', hmin, hstr⟩
      · refine Or.inr ⟨0, Nat.succ_pos _, ?_, hlt, ?_, ?_⟩
        · simpa using heq
        · intro m hm
          cases m with
          | zero => simp
          | succ m' =>
            rw [List.getD_cons_succ, List.getD_cons_zero]
            exact hmin m' (by simpa using hm)
        · intro m hm; exact absurd hm (Nat.not_lt_zero m)
      · refine Or.inr ⟨k + 1, by simpa using hk, ?_, ?_, ?_, ?_⟩
        · rw [List.getD_cons_succ, show j0 + (k + 1) = j0 + 1 + k by omega]
          exact heq
        · rw [List.getD_cons_succ]; exact hlt'.trans hlt
        · intro m hm
          cases m with
          | zero =>
            rw [List.getD_cons_succ, List.getD_cons_zero]
            exact hlt'.le
          | succ m' =>
            rw [List.getD_cons_succ, List.getD_cons_succ]
            exact hmin m' (by simpa using hm)
        · intro m hm
          cases m with
          | zero =>
            rw [List.getD_cons_succ, List.getD_cons_zero]
            exact hlt'
          | succ m' =>
            rw [List.getD_cons_succ, List.getD_cons_succ]
            exact hstr m' (by simpa using hm)
    · rw [if_neg (fun hc => hlt (WithTop.coe_lt_coe.mp hc))]
      rcases ih (j0 + 1) b q with ⟨heq, hmin⟩ | ⟨k, hk, heq, hlt', hmin, hstr⟩
      · refine Or.inl ⟨heq, ?_⟩
        intro m hm
        cases m with
        | zero => rw [List.getD_cons_zero]; exact le_of_not_lt hlt
        | succ m' =>
          rw [List.getD_cons_succ]
          exact hmin m' (by simpa using hm)
      · refine Or.inr ⟨k + 1, by simpa using hk, ?_, ?_, ?_, ?_⟩
        · rw [List.getD_cons_succ, show j0 + (k + 1) = j0 + 1 + k by omega]
          exact heq
        · rw [List.getD_cons_succ]; exact hlt'
        · intro m hm
          cases m with
          | zero =>
            rw [List.getD_cons_succ, List.getD_cons_zero]
            exact hlt'.le.trans (le_of_not_lt hlt)
          | succ m' =>
            rw [List.getD_cons_succ, List.getD_cons_succ]
            exact hmin m' (by simpa using hm)
        · intro m hm
          cases m with
          | zero =>
            rw [List.getD_cons_succ, List.getD_cons_zero]
            exact hlt'.trans_le (le_of_not_lt hlt)
          | succ m' =>
            rw [List.getD_cons_succ, List.getD_cons_succ]
            exact hstr m' (by simpa using hm)

lemma scanCentroids_spec (μ : Vec → Vec → ℚ) (p : Vec) (cent : Mat)
    (hK : cent ≠ []) :
    closestCluster μ p cent < cent.length ∧
    (∀ i < cent.length,
      μ p (cent.getD (closestCluster μ p cent) []) ≤ μ p (cent.getD i [])) ∧
    ∀ i < closestCluster μ p cent,
      μ p (cent.getD (closestCluster μ p cent) []) < μ p (cent.getD i []) := by
  cases cent with
  | nil => exact absurd rfl hK
  | cons c cs =>
    have hscan : scanCentroids μ p (c :: cs) =
        scanFrom μ p cs 1 (0, (μ p c : WithTop ℚ)) := by
      simp only [scanCentroids, scanFrom, if_pos (WithTop.coe_lt_top (μ p c))]
    rcases scanFrom_go μ p cs 1 0 (μ p c) with ⟨heq, hmin⟩ |
      ⟨k, hk, heq, hlt', hmin, hstr⟩
    · have hcc : closestCluster μ p (c :: cs) = 0 := by
        simp only [closestCluster, hscan, heq]
      refine ⟨by simp [hcc], ?_, ?_⟩
      · intro i hi
        rw [hcc, List.getD_cons_zero]
        cases i with
        | zero => simp
        | succ m =>
          rw [List.getD_cons_succ]
          exact hmin m (by simpa using hi)
      · intro i hi
        rw [hcc] at hi
        exact absurd hi (Nat.not_lt_zero i)
    · have hcc : closestCluster μ p (c :: cs) = k + 1 := by
        simp only [closestCluster, hscan, heq]
        omega
      have hgd : (c :: cs).getD (closestCluster μ p (c :: cs)) [] =
          cs.getD k [] := by rw [hcc, List.getD_cons_succ]
      refine ⟨by simp [hcc]; omega, ?_, ?_⟩
      · intro i hi
        rw [hgd]
        cases i with
        | zero => rw [List.getD_cons_zero]; exact hlt'.le
        | succ m =>
          rw [List.getD_cons_succ]
          exact hmin m (by simpa using hi)
      · intro i hi
        rw [hgd]
        cases i with
        | zero => rw [List.getD_cons_zero]; exact hlt'
        | succ m =>
          rw [List.getD_cons_succ]
          exact hstr m (by rw [hcc] at hi; omega)

/-! ## Accumulation: characterisation by the assignment filter -/

lemma accumulate_counts_length (μ : Vec → Vec → ℚ) (cent : Mat) :
    ∀ (data : Mat) (a : Accum),
      (accumulate μ cent data a).counts.length = a.counts.length := by
  intro data
  induction data with
  | nil => intro a; rfl
  | cons p data ih =>
    intro a
    rw [accumulate, List.foldl_cons, ← accumulate, ih]
    simp [addPoint]

lemma accumulate_sums_length (μ : Vec → Vec → ℚ) (cent : Mat) :
    ∀ (data : Mat) (a : Accum),
      (accumulate μ cent data a).sums.length = a.sums.length := by
  intro data
  induction data with
  | nil => intro a; rfl
  | cons p data ih =>
    intro a
    rw [accumulate, List.foldl_cons, ← accumulate, ih]
    simp [addPoint]

lemma accumulate_counts_getD (μ : Vec → Vec → ℚ) (cent : Mat) :
    ∀ (data : Mat) (a : Accum) (i : ℕ), i < a.counts.length →
      (accumulate μ cent data a).counts.getD i 0 =
        a.counts.getD i 0 + (assignedTo μ cent i data).length := by
  intro data
  induction data with
  | nil => intro a i _; simp [accumulate, assignedTo]
  | cons p data ih =>
    intro a i hi
    rw [accumulate, List.foldl_cons, ← accumulate]
    rw [ih (addPoint μ cent a p) i (by simpa [addPoint] using hi)]
    by_cases hj : closestCluster μ p cent = i
    · have h1 : (addPoint μ cent a p).counts.getD i 0 =
          a.counts.getD i 0 + 1 := by
        simp only [addPoint, hj]
        exact getD_set_self hi _ _
      have h2 : assignedTo μ cent i (p :: data) =
          p :: assignedTo μ cent i data := by
        simp [assignedTo, List.filter_cons, hj]
      rw [h1, h2, List.length_cons]
      omega
    · have h1 : (addPoint μ cent a p).counts.getD i 0 =
          a.counts.getD i 0 := by
        simp only [addPoint]
        exact getD_set_ne hj _ _
      have h2 : assignedTo μ cent i (p :: data) =
          assignedTo μ cent i data := by
        simp [assignedTo, List.filter_cons, hj]
      rw [h1, h2]

lemma accumulate_sums_getD (μ : Vec → Vec → ℚ) (cent : Mat) :
    ∀ (data : Mat) (a : Accum) (i : ℕ), i < a.sums.length →
      (accumulate μ cent data a).sums.getD i [] =
        (assignedTo μ cent i data).foldl vecAdd (a.sums.getD i []) := by
  intro data
  induction data with
  | nil => intro a i _; simp [accumulate, assignedTo]
  | cons p data ih =>
    intro a i hi
    rw [accumulate, List.foldl_cons, ← accumulate]
    rw [ih (addPoint μ cent a p) i (by simpa [addPoint] using hi)]
    by_cases hj : closestCluster μ p cent = i
    · have h1 : (addPoint μ cent a p).sums.getD i [] =
          vecAdd (a.sums.getD i []) p := by
        simp only [addPoint, hj]
        exact getD_set_self hi _ _
      have h2 : assignedTo μ cent i (p :: data) =
          p :: assignedTo μ cent i data := by
        simp [assignedTo, List.filter_cons, hj]
      rw [h1, h2, List.foldl_cons]
    · have h1 : (addPoint μ cent a p).sums.getD i [] =
          a.sums.getD i [] := by
        simp only [addPoint]
        exact getD_set_ne hj _ _
      have h2 : assignedTo μ cent i (p :: data) =
          assignedTo μ cent i data := by
        simp [assignedTo, List.filter_cons, hj]
      rw [h1, h2]

lemma sum_set_getD_add_one :
    ∀ (l : List ℕ) (j : ℕ), j < l.length →
      (l.set j (l.getD j 0 + 1)).sum = l.sum + 1 := by
  intro l
  induction l with
  | nil => intro j hj; simp at hj
  | cons x xs ih =>
    intro j hj
    cases j with
    | zero => simp [List.getD_cons_zero]; omega
    | succ j' =>
      simp only [List.getD_cons_succ, List.set_cons_succ, List.sum_cons]
      rw [ih j' (by simpa using hj)]
      omega

lemma accumulate_counts_sum (μ : Vec → Vec → ℚ) (cent : Mat) :
    ∀ (data : Mat) (a : Accum),
      (∀ p ∈ data, closestCluster μ p cent < a.counts.length) →
      (accumulate μ cent data a).counts.sum = a.counts.sum + data.length := by
  intro data
  induction data with
  | nil => intro a _; simp [accumulate]
  | cons p data ih =>
    intro a hcl
    rw [accumulate, List.foldl_cons, ← accumulate]
    rw [ih (addPoint μ cent a p)
      (fun q hq => by
        simpa [addPoint] using hcl q (List.mem_cons_of_mem _ hq))]
    have h1 : (addPoint μ cent a p).counts.sum = a.counts.sum + 1 := by
      simp only [addPoint]
      exact sum_set_getD_add_one _ _ (hcl p (List.mem_cons_self _ _))
    rw [h1, List.length_cons]
    omega

/-! ## Normalisation -/

lemma length_normalize (a : Accum) :
    (normalize a).length = min a.sums.length a.counts.length :=
  List.length_zipWith _ _ _

lemma normalize_getD {a : Accum} {i : ℕ} (hi : i < a.sums.length)
    (hi' : i < a.counts.length) :
    (normalize a).getD i [] =
      if a.counts.getD i 0 ≠ 0 then
        vecDivNat (a.sums.getD i []) (a.counts.getD i 0)
      else a.sums.getD i [] := by
  have hlen : i < (normalize a).length := by
    rw [length_normalize]; omega
  rw [List.getD_eq_getElem _ _ hlen]
  simp only [normalize]
  rw [List.getElem_zipWith,
    ← List.getD_eq_getElem _ ([] : Vec) hi, ← List.getD_eq_getElem _ 0 hi']

/-! ## The distortion accumulator `cNorm` -/

lemma foldl_range_add (f : ℕ → ℚ) :
    ∀ (n : ℕ) (x : ℚ),
      (List.range n).foldl (fun acc i => acc + f i) x =
        x + ∑ i ∈ Finset.range n, f i := by
  intro n
  induction n with
  | zero => intro x; simp
  | succ n ih =>
    intro x
    rw [List.range_succ, List.foldl_append, ih, Finset.sum_range_succ]
    simp [add_assoc]

lemma cNorm_eq_sum (μ : Vec → Vec → ℚ) (cent newCent : Mat) :
    cNorm μ cent newCent =
      ∑ i ∈ Finset.range cent.length,
        μ (cent.getD i []) (newCent.getD i []) ^ 2 := by
  rw [cNorm, foldl_range_add, zero_add]

lemma cNorm_nonneg (μ : Vec → Vec → ℚ) (cent newCent : Mat) :
    0 ≤ cNorm μ cent newCent := by
  rw [cNorm_eq_sum]
  exact Finset.sum_nonneg fun i _ => sq_nonneg _

lemma cNorm_eq_zero_iff (μ : Vec → Vec → ℚ) (cent newCent : Mat) :
    cNorm μ cent newCent = 0 ↔
      ∀ i < cent.length, μ (cent.getD i []) (newCent.getD i []) = 0 := by
  rw [cNorm_eq_sum]
  rw [Finset.sum_eq_zero_iff_of_nonneg fun i _ => sq_nonneg _]
  constructor
  · intro h i hi
    exact (pow_eq_zero_iff two_ne_zero).mp (h i (Finset.mem_range.mpr hi))
  · intro h i hi
    rw [h i (Finset.mem_range.mp hi)]
    ring

/-! ## The fatal assertion never fires when `K ≥ 1` -/

lemma closestCluster_lt (μ : Vec → Vec → ℚ) (p : Vec) (cent : Mat)
    (hK : 1 ≤ cent.length) : closestCluster μ p cent < cent.length :=
  (scanCentroids_spec μ p cent (List.length_pos.mp hK)).1

lemma assertionOK_of_pos (μ : Vec → Vec → ℚ) (data cent : Mat)
    (hK : 1 ≤ cent.length) : assertionOK μ data cent = true := by
  rw [assertionOK, List.all_eq_true]
  intro p _
  rw [bne_iff_ne]
  exact Nat.ne_of_lt (closestCluster_lt μ p cent hK)

lemma Iterate_eq_some (μ : Vec → Vec → ℚ) (d : ℕ) (data cent : Mat) (dc0 : ℕ)
    (hK : 1 ≤ cent.length) :
    Iterate μ d data cent dc0 = some (IterateCore μ d data cent dc0) := by
  rw [Iterate, if_pos (assertionOK_of_pos μ data cent hK)]

/-! ## Characterisation of the completed call -/

lemma initAccum_sums_getD {d K i : ℕ} (hi : i < K) :
    (initAccum d K).sums.getD i [] = vecZero d := by
  rw [initAccum]
  rw [List.getD_eq_getElem _ _ (by simpa using hi), List.getElem_replicate]

lemma initAccum_counts_getD {d K i : ℕ} (hi : i < K) :
    (initAccum d K).counts.getD i 0 = 0 := by
  rw [initAccum]
  rw [List.getD_eq_getElem _ _ (by simpa using hi), List.getElem_replicate]

lemma IterateCore_counts_length (μ : Vec → Vec → ℚ) (d : ℕ)
    (data cent : Mat) (dc0 : ℕ) :
    (IterateCore μ d data cent dc0).counts.length = cent.length := by
  simp only [IterateCore]
  rw [accumulate_counts_length]
  simp [initAccum]

lemma IterateCore_newCentroids_length (μ : Vec → Vec → ℚ) (d : ℕ)
    (data cent : Mat) (dc0 : ℕ) :
    (IterateCore μ d data cent dc0).newCentroids.length = cent.length := by
  simp only [IterateCore]
  rw [length_normalize, accumulate_sums_length, accumulate_counts_length]
  simp [initAccum]

lemma IterateCore_counts_getD (μ : Vec → Vec → ℚ) (d : ℕ) (data cent : Mat)
    (dc0 : ℕ) {i : ℕ} (hi : i < cent.length) :
    (IterateCore μ d data cent dc0).counts.getD i 0 =
      (assignedTo μ cent i data).length := by
  simp only [IterateCore]
  rw [accumulate_counts_getD μ cent data (initAccum d cent.length) i
      (by simp [initAccum]; exact hi),
    initAccum_counts_getD hi, zero_add]

lemma IterateCore_newCentroids_getD (μ : Vec → Vec → ℚ) (d : ℕ)
    (data cent : Mat) (dc0 : ℕ) {i : ℕ} (hi : i < cent.length) :
    (IterateCore μ d data cent dc0).newCentroids.getD i [] =
      if (assignedTo μ cent i data).length ≠ 0 then
        vecDivNat ((assignedTo μ cent i data).foldl vecAdd (vecZero d))
          (assignedTo μ cent i data).length
      else vecZero d := by
  simp only [IterateCore]
  have hsl : i < (accumulate μ cent data (initAccum d cent.length)).sums.length := by
    rw [accumulate_sums_length]; simp [initAccum]; exact hi
  have hcl : i < (accumulate μ cent data (initAccum d cent.length)).counts.length := by
    rw [accumulate_counts_length]; simp [initAccum]; exact hi
  rw [normalize_getD hsl hcl,
    accumulate_counts_getD μ cent data (initAccum d cent.length) i
      (by simp [initAccum]; exact hi),
    accumulate_sums_getD μ cent data (initAccum d cent.length) i
      (by simp [initAccum]; exact hi),
    initAccum_counts_getD hi, initAccum_sums_getD hi, zero_add]
  by_cases h : (assignedTo μ cent i data).length = 0
  · rw [if_neg (by omega), if_neg (by omega)]
    rw [List.length_eq_zero.mp h]
    rfl
  · rw [if_pos h, if_pos h]

/-! ## Claim theorems -/

/-- C1: for every valid input and every cluster index `i` with
`Counts[i] > 0`, after `Iterate` returns, `NewCentroids` column `i` equals
the arithmetic mean (component-wise sum divided by `Counts[i]`) of exactly
those dataset points whose nearest centroid under the tie-break rule is
`i`. -/
theorem C1_new_centroids_are_means (μ : Vec → Vec → ℚ) (d : ℕ)
    (data cent : Mat) (dc0 i : ℕ) (hK : 1 ≤ cent.length)
    (hi : i < cent.length)
    (hpos : 0 < (IterateCore μ d data cent dc0).counts.getD i 0) :
    Iterate μ d data cent dc0 = some (IterateCore μ d data cent dc0) ∧
    (IterateCore μ d data cent dc0).counts.getD i 0 =
      (assignedTo μ cent i data).length ∧
    (IterateCore μ d data cent dc0).newCentroids.getD i [] =
      meanOf d (assignedTo μ cent i data) := by
  have hc := IterateCore_counts_getD μ d data cent dc0 hi
  refine ⟨Iterate_eq_some μ d data cent dc0 hK, hc, ?_⟩
  have hlen : (assignedTo μ cent i data).length ≠ 0 := by
    rw [hc] at hpos; omega
  rw [IterateCore_newCentroids_getD μ d data cent dc0 hi, if_pos hlen, meanOf]

/-- C3: for every valid input (`K ≥ 1`, `N ≥ 1`, non-NaN metric), after
`Iterate` returns, the sum over all `K` entries of `Counts` equals `N`:
every point is assigned to exactly one cluster. -/
theorem C3_counts_sum_eq_N (μ : Vec → Vec → ℚ) (d : ℕ) (data cent : Mat)
    (dc0 : ℕ) (hK : 1 ≤ cent.length) (hN : 1 ≤ data.length) :
    Iterate μ d data cent dc0 = some (IterateCore μ d data cent dc0) ∧
    (IterateCore μ d data cent dc0).counts.sum = data.length := by
  refine ⟨Iterate_eq_some μ d data cent dc0 hK, ?_⟩
  simp only [IterateCore]
  rw [accumulate_counts_sum μ cent data (initAccum d cent.length)
    (fun p _ => by
      simp only [initAccum, List.length_replicate]
      exact closestCluster_lt μ p cent hK)]
  simp [initAccum]

/-- C4: for every point, the selected cluster index is the least argmin of
the distances to the `K` centroids: it is in range, its distance is minimal,
every strictly smaller index has strictly larger distance, and on exact ties
the lowest index wins. -/
theorem C4_tie_break_lowest_index (μ : Vec → Vec → ℚ) (p : Vec) (cent : Mat)
    (hK : 1 ≤ cent.length) :
    closestCluster μ p cent < cent.length ∧
    (∀ i < cent.length,
      μ p (cent.getD (closestCluster μ p cent) []) ≤ μ p (cent.getD i [])) ∧
    (∀ i < closestCluster μ p cent,
      μ p (cent.getD (closestCluster μ p cent) []) < μ p (cent.getD i [])) ∧
    (∀ i < cent.length,
      μ p (cent.getD i []) = μ p (cent.getD (closestCluster μ p cent) []) →
        closestCluster μ p cent ≤ i) := by
  obtain ⟨h1, h2, h3⟩ := scanCentroids_spec μ p cent (List.length_pos.mp hK)
  refine ⟨h1, h2, h3, ?_⟩
  intro i _ heq
  by_contra hlt
  exact absurd heq (ne_of_gt (heq ▸ h3 i (by omega)))

/-- C5 counterexample: with `K = 0` (no centroid columns) the call is not
rejected with a recoverable error before the assignment phase; instead every
point's scan ends at the invalid sentinel and the fatal internal assertion
aborts the call (`none`). -/
theorem C5_counterexample : Iterate sqDist 1 [[0]] [] 0 = none := rfl

/-- C5 (amended): `Iterate` performs no up-front configuration validation.
With `K = 0` and `N ≥ 1` the inner scan of every point selects the invalid
sentinel index `K`, the fatal `Log::Assert` fires during the assignment
phase, and the call aborts; no explicit recoverable error is surfaced to the
caller. -/
theorem C5_no_validation_fatal_assert (μ : Vec → Vec → ℚ) (d : ℕ)
    (data : Mat) (dc0 : ℕ) (hN : 1 ≤ data.length) :
    (∀ p : Vec, closestCluster μ p [] = ([] : Mat).length) ∧
    Iterate μ d data [] dc0 = none := by
  refine ⟨fun p => rfl, ?_⟩
  cases data with
  | nil => simp at hN
  | cons p rest =>
    have hq : ∀ q : Vec, closestCluster μ q [] = 0 := fun q => rfl
    rw [Iterate, if_neg]
    simp [assertionOK, List.all_cons, hq]

/-- C6: for every cluster index `i` with `Counts[i] = 0` after assignment,
`Iterate` leaves `NewCentroids` column `i` as the zero vector and completes
normally: an empty cluster is a valid output state, not an error. -/
theorem C6_empty_cluster_zero_vector (μ : Vec → Vec → ℚ) (d : ℕ)
    (data cent : Mat) (dc0 i : ℕ) (hK : 1 ≤ cent.length)
    (hi : i < cent.length)
    (hzero : (IterateCore μ d data cent dc0).counts.getD i 0 = 0) :
    Iterate μ d data cent dc0 = some (IterateCore μ d data cent dc0) ∧
    (IterateCore μ d data cent dc0).newCentroids.getD i [] = vecZero d := by
  refine ⟨Iterate_eq_some μ d data cent dc0 hK, ?_⟩
  rw [IterateCore_counts_getD μ d data cent dc0 hi] at hzero
  rw [IterateCore_newCentroids_getD μ d data cent dc0 hi, if_neg (by omega)]

/-- C7: every completed call to `Iterate` increases the
`distanceCalculations` counter by exactly `K*N + K`, and the counter never
decreases. -/
theorem C7_distance_calculations (μ : Vec → Vec → ℚ) (d : ℕ)
    (data cent : Mat) (dc0 : ℕ) (hK : 1 ≤ cent.length) :
    Iterate μ d data cent dc0 = some (IterateCore μ d data cent dc0) ∧
    (IterateCore μ d data cent dc0).distanceCalculations =
      dc0 + (cent.length * data.length + cent.length) ∧
    dc0 ≤ (IterateCore μ d data cent dc0).distanceCalculations := by
  refine ⟨Iterate_eq_some μ d data cent dc0 hK, ?_, ?_⟩
  · simp only [IterateCore]; omega
  · simp only [IterateCore]; omega

/-- C8: under the precondition `K ≥ 1` (and a metric valued in ℚ, hence
never NaN), every point's inner centroid scan selects an index in
`0..K-1`, so the internal assertion `closestCluster != K` is unreachable and
the assertion check passes for any dataset. -/
theorem C8_assertion_unreachable (μ : Vec → Vec → ℚ) (data cent : Mat)
    (hK : 1 ≤ cent.length) :
    (∀ p : Vec, closestCluster μ p cent < cent.length ∧
      closestCluster μ p cent ≠ cent.length) ∧
    assertionOK μ data cent = true := by
  refine ⟨fun p => ?_, assertionOK_of_pos μ data cent hK⟩
  have h := closestCluster_lt μ p cent hK
  exact ⟨h, Nat.ne_of_lt h⟩

/-- C10: the outputs of `Iterate` do not depend on the prior contents or
shapes of the caller-supplied output buffers `newCentroids` and `counts`:
both are resized and zero-filled at the start of every call. -/
theorem C10_buffers_discarded (b1 b2 : Mat) (c1 c2 : List ℕ)
    (μ : Vec → Vec → ℚ) (d : ℕ) (data cent : Mat) (dc0 : ℕ) :
    IterateWithBuffers b1 c1 μ d data cent dc0 =
      IterateWithBuffers b2 c2 μ d data cent dc0 := rfl

/-! ## Column dimensions of the output, and the distortion claim -/

lemma foldl_vecAdd_length {d : ℕ} :
    ∀ (ps : List Vec) (v : Vec), v.length = d → (∀ p ∈ ps, p.length = d) →
      (ps.foldl vecAdd v).length = d := by
  intro ps
  induction ps with
  | nil => intro v hv _; exact hv
  | cons p ps ih =>
    intro v hv hps
    rw [List.foldl_cons]
    exact ih (vecAdd v p)
      (by rw [length_vecAdd, hv, hps p (List.mem_cons_self _ _)]; omega)
      (fun q hq => hps q (List.mem_cons_of_mem _ hq))

lemma IterateCore_col_length (μ : Vec → Vec → ℚ) (d : ℕ) (data cent : Mat)
    (dc0 : ℕ) {i : ℕ} (hi : i < cent.length)
    (hdata : ∀ p ∈ data, p.length = d) :
    ((IterateCore μ d data cent dc0).newCentroids.getD i []).length = d := by
  rw [IterateCore_newCentroids_getD μ d data cent dc0 hi]
  have hassigned : ∀ p ∈ assignedTo μ cent i data, p.length = d :=
    fun p hp => hdata p (List.mem_of_mem_filter hp)
  have hfold : ((assignedTo μ cent i data).foldl vecAdd (vecZero d)).length = d :=
    foldl_vecAdd_length _ _ (by simp [vecZero]) hassigned
  split
  · rw [length_vecDivNat]; exact hfold
  · simp [vecZero]

lemma getD_mem {α : Type*} {l : List α} {i : ℕ} (hi : i < l.length)
    (dflt : α) : l.getD i dflt ∈ l := by
  rw [List.getD_eq_getElem _ _ hi]
  exact List.getElem_mem hi

/-- C2: the scalar returned by `Iterate` is `√cNorm` where `cNorm` equals
the sum over all `K` clusters of `Evaluate(currentCentroids[i],
NewCentroids[i])` squared; the returned distortion is `≥ 0`, and it equals
`0` iff `NewCentroids` equals `currentCentroids` exactly (for a metric
satisfying the identity of indiscernibles, as any genuine distance — such as
`sqDist` — does). -/
theorem C2_distortion_sqrt_zero_iff_fixed (μ : Vec → Vec → ℚ) (d : ℕ)
    (data cent : Mat) (dc0 : ℕ) (hK : 1 ≤ cent.length)
    (hcent : ∀ c ∈ cent, c.length = d)
    (hdata : ∀ p ∈ data, p.length = d)
    (hdef : ∀ a b : Vec, a.length = d → b.length = d → (μ a b = 0 ↔ a = b)) :
    Iterate μ d data cent dc0 = some (IterateCore μ d data cent dc0) ∧
    (IterateCore μ d data cent dc0).cNorm =
      ∑ i ∈ Finset.range cent.length,
        μ (cent.getD i [])
          ((IterateCore μ d data cent dc0).newCentroids.getD i []) ^ 2 ∧
    0 ≤ Real.sqrt ((IterateCore μ d data cent dc0).cNorm : ℝ) ∧
    (Real.sqrt ((IterateCore μ d data cent dc0).cNorm : ℝ) = 0 ↔
      (IterateCore μ d data cent dc0).newCentroids = cent) := by
  have hcore : (IterateCore μ d data cent dc0).cNorm =
      cNorm μ cent ((IterateCore μ d data cent dc0).newCentroids) := rfl
  refine ⟨Iterate_eq_some μ d data cent dc0 hK, ?_, Real.sqrt_nonneg _, ?_⟩
  · rw [hcore, cNorm_eq_sum]
  · have h0 : 0 ≤ (IterateCore μ d data cent dc0).cNorm := by
      rw [hcore]; exact cNorm_nonneg _ _ _
    have hsqrt : Real.sqrt ((IterateCore μ d data cent dc0).cNorm : ℝ) = 0 ↔
        (IterateCore μ d data cent dc0).cNorm = 0 := by
      rw [Real.sqrt_eq_zero']
      constructor
      · intro h
        have : ((IterateCore μ d data cent dc0).cNorm : ℝ) = 0 :=
          le_antisymm h (by exact_mod_cast h0)
        exact_mod_cast this
      · intro h; rw [h]; simp
    rw [hsqrt, hcore, cNorm_eq_zero_iff]
    have hlen : (IterateCore μ d data cent dc0).newCentroids.length =
        cent.length := IterateCore_newCentroids_length μ d data cent dc0
    constructor
    · intro h
      refine List.ext_getElem (by rw [hlen]) ?_
      intro n h1 h2
      have hn : n < cent.length := by omega
      have := (hdef (cent.getD n [])
        ((IterateCore μ d data cent dc0).newCentroids.getD n [])
        (hcent _ (getD_mem hn []))
        (IterateCore_col_length μ d data cent dc0 hn hdata)).mp (h n hn)
      rw [← List.getD_eq_getElem _ ([] : Vec) h1,
        ← List.getD_eq_getElem _ ([] : Vec) h2]
      exact this.symm
    · intro h i hi
      rw [h]
      exact (hdef (cent.getD i []) (cent.getD i [])
        (hcent _ (getD_mem hi [])) (hcent _ (getD_mem hi []))).mpr rfl

lemma sqDist_cons (x y : ℚ) (xs ys : Vec) :
    sqDist (x :: xs) (y :: ys) = (x - y) ^ 2 + sqDist xs ys := by
  simp [sqDist]

lemma sqDist_nonneg : ∀ a b : Vec, 0 ≤ sqDist a b := by
  intro a
  induction a with
  | nil => intro b; simp [sqDist]
  | cons x xs ih =>
    intro b
    cases b with
    | nil => simp [sqDist]
    | cons y ys =>
      rw [sqDist_cons]
      have := ih ys
      nlinarith [sq_nonneg (x - y)]

lemma sqDist_self : ∀ a : Vec, sqDist a a = 0 := by
  intro a
  induction a with
  | nil => simp [sqDist]
  | cons x xs ih => rw [sqDist_cons, ih]; ring

/-- `sqDist` satisfies the identity of indiscernibles on vectors of equal
dimension: the squared Euclidean distance is zero iff the vectors agree. -/
lemma sqDist_eq_zero_iff {d : ℕ} :
    ∀ {a b : Vec}, a.length = d → b.length = d → (sqDist a b = 0 ↔ a = b) := by
  induction d with
  | zero =>
    intro a b ha hb
    rw [List.length_eq_zero.mp ha, List.length_eq_zero.mp hb]
    simp [sqDist]
  | succ d ih =>
    intro a b ha hb
    cases a with
    | nil => simp at ha
    | cons x xs =>
      cases b with
      | nil => simp at hb
      | cons y ys =>
        have hxs : xs.length = d := by simpa using ha
        have hys : ys.length = d := by simpa using hb
        rw [sqDist_cons]
        constructor
        · intro h
          have hrest : 0 ≤ sqDist xs ys := sqDist_nonneg xs ys
          have h1 : (x - y) ^ 2 = 0 := by nlinarith [sq_nonneg (x - y)]
          have h2 : sqDist xs ys = 0 := by nlinarith [sq_nonneg (x - y)]
          have hx : x = y := by
            have := (pow_eq_zero_iff (by norm_num : (2 : ℕ) ≠ 0)).mp h1
            linarith
          rw [hx, (ih hxs hys).mp h2]
        · intro h
          injection h with h1 h2
          rw [h1, h2, sqDist_self]
          ring

/-! ## The parallel reduction equals the sequential scan -/

lemma vecAdd_comm (a : Vec) : ∀ b : Vec, vecAdd a b = vecAdd b a := by
  induction a with
  | nil => intro b; cases b <;> simp [vecAdd]
  | cons x xs ih =>
    intro b
    cases b with
    | nil => simp [vecAdd]
    | cons y ys =>
      simp only [vecAdd, List.zipWith_cons_cons, List.cons.injEq] at *
      exact ⟨add_comm x y, ih ys⟩

lemma vecAdd_right_comm (s p q : Vec) :
    vecAdd (vecAdd s p) q = vecAdd (vecAdd s q) p := by
  rw [vecAdd_assoc, vecAdd_comm p q, ← vecAdd_assoc]

lemma zipWith_replicate_right {α β : Type*} (f : α → β → α) (z : β) :
    ∀ l : List α, (∀ x ∈ l, f x z = x) →
      List.zipWith f l (List.replicate l.length z) = l := by
  intro l
  induction l with
  | nil => intro _; rfl
  | cons x xs ih =>
    intro h
    simp only [List.length_cons, List.replicate_succ, List.zipWith_cons_cons]
    rw [h x (List.mem_cons_self _ _),
      ih fun y hy => h y (List.mem_cons_of_mem _ hy)]

lemma mergeAccum_initAccum_right {d K : ℕ} {a : Accum} (h : AccumWF d K a) :
    mergeAccum a (initAccum d K) = a := by
  obtain ⟨s, c⟩ := a
  obtain ⟨hs, hc, hcols⟩ := h
  simp only at hs hc hcols
  simp only [mergeAccum, initAccum, Accum.mk.injEq]
  constructor
  · rw [← hs]
    exact zipWith_replicate_right _ _ s
      fun col hcol => vecAdd_zero_right (hcols col hcol)
  · rw [← hc]
    exact zipWith_replicate_right _ _ c fun x _ => add_zero x

lemma zipWith_set_assoc {α : Type*} (f : α → α → α)
    (hf : ∀ x y z, f (f x y) z = f x (f y z)) :
    ∀ (A B : List α) (j : ℕ) (p dflt : α),
      (List.zipWith f A B).set j
          (f ((List.zipWith f A B).getD j dflt) p) =
        List.zipWith f A (B.set j (f (B.getD j dflt) p)) := by
  intro A
  induction A with
  | nil => intro B j p dflt; simp
  | cons a A ih =>
    intro B j p dflt
    cases B with
    | nil => simp
    | cons b B =>
      cases j with
      | zero =>
        simp only [List.zipWith_cons_cons, List.getD_cons_zero,
          List.set_cons_zero]
        rw [hf]
      | succ k =>
        simp only [List.zipWith_cons_cons, List.getD_cons_succ,
          List.set_cons_succ]
        rw [ih]

lemma addPoint_mergeAccum (μ : Vec → Vec → ℚ) (cent : Mat) (a b : Accum)
    (p : Vec) :
    addPoint μ cent (mergeAccum a b) p = mergeAccum a (addPoint μ cent b p) := by
  simp only [addPoint, mergeAccum, Accum.mk.injEq]
  exact ⟨zipWith_set_assoc vecAdd vecAdd_assoc a.sums b.sums _ p [],
    zipWith_set_assoc (· + ·) (fun x y z => add_assoc x y z)
      a.counts b.counts _ 1 0⟩

lemma accumulate_mergeAccum (μ : Vec → Vec → ℚ) (cent : Mat) :
    ∀ (l : Mat) (a b : Accum),
      accumulate μ cent l (mergeAccum a b) =
        mergeAccum a (accumulate μ cent l b) := by
  intro l
  induction l with
  | nil => intro a b; rfl
  | cons p l ih =>
    intro a b
    have h0 : accumulate μ cent (p :: l) (mergeAccum a b) =
        accumulate μ cent l (addPoint μ cent (mergeAccum a b) p) := rfl
    rw [h0, addPoint_mergeAccum, ih]
    rfl

lemma initAccum_wf (d K : ℕ) : AccumWF d K (initAccum d K) := by
  refine ⟨by simp [initAccum], by simp [initAccum], ?_⟩
  intro col hcol
  simp only [initAccum] at hcol
  rw [List.eq_of_mem_replicate hcol]
  simp [vecZero]

lemma addPoint_wf {d K : ℕ} (μ : Vec → Vec → ℚ) (cent : Mat) {a : Accum}
    (p : Vec) (h : AccumWF d K a) : AccumWF d K (addPoint μ cent a p) := by
  obtain ⟨hs, hc, hcols⟩ := h
  refine ⟨by simp [addPoint, hs], by simp [addPoint, hc], ?_⟩
  intro col hcol
  simp only [addPoint] at hcol
  rcases List.mem_or_eq_of_mem_set hcol with h1 | h1
  · exact hcols col h1
  · rw [h1]
    by_cases hj : closestCluster μ p cent < a.sums.length
    · calc (vecAdd (a.sums.getD (closestCluster μ p cent) []) p).length
          ≤ (a.sums.getD (closestCluster μ p cent) []).length :=
            length_vecAdd_le_left _ _
        _ ≤ d := hcols _ (getD_mem hj [])
    · rw [List.getD_eq_getElem?_getD, List.getElem?_eq_none (by omega),
        Option.getD_none]
      simp [vecAdd]

lemma accumulate_wf {d K : ℕ} (μ : Vec → Vec → ℚ) (cent : Mat) :
    ∀ (l : Mat) {a : Accum}, AccumWF d K a →
      AccumWF d K (accumulate μ cent l a) := by
  intro l
  induction l with
  | nil => intro a h; exact h
  | cons p l ih =>
    intro a h
    rw [accumulate, List.foldl_cons, ← accumulate]
    exact ih (addPoint_wf μ cent p h)

lemma parallelAccum_go (μ : Vec → Vec → ℚ) (cent : Mat) (d : ℕ) :
    ∀ (chunks : List Mat) (a : Accum), AccumWF d cent.length a →
      chunks.foldl
        (fun shared chunk =>
          mergeAccum shared
            (accumulate μ cent chunk (initAccum d cent.length))) a =
        accumulate μ cent chunks.flatten a := by
  intro chunks
  induction chunks with
  | nil => intro a _; rfl
  | cons ch rest ih =>
    intro a ha
    rw [List.foldl_cons, List.flatten_cons]
    have h1 : mergeAccum a (accumulate μ cent ch (initAccum d cent.length)) =
        accumulate μ cent ch a := by
      rw [← accumulate_mergeAccum, mergeAccum_initAccum_right ha]
    rw [h1, ih (accumulate μ cent ch a) (accumulate_wf μ cent ch ha)]
    simp only [accumulate, List.foldl_append]

lemma parallelAccum_eq (μ : Vec → Vec → ℚ) (cent : Mat) (d : ℕ)
    (chunks : List Mat) :
    parallelAccum μ cent d chunks =
      accumulate μ cent chunks.flatten (initAccum d cent.length) :=
  parallelAccum_go μ cent d chunks (initAccum d cent.length)
    (initAccum_wf d cent.length)

/-! ## Permutation invariance of the accumulation -/

lemma set_f_comm {α : Type*} (f : α → α → α)
    (hrc : ∀ s p q, f (f s p) q = f (f s q) p)
    (S : List α) (j k : ℕ) (p q dflt : α) :
    (S.set j (f (S.getD j dflt) p)).set k
        (f ((S.set j (f (S.getD j dflt) p)).getD k dflt) q) =
      (S.set k (f (S.getD k dflt) q)).set j
        (f ((S.set k (f (S.getD k dflt) q)).getD j dflt) p) := by
  by_cases hjk : j = k
  · subst hjk
    by_cases hj : j < S.length
    · rw [getD_set_self hj, getD_set_self hj, List.set_set, List.set_set, hrc]
    · have hset : ∀ v : α, S.set j v = S := fun v =>
        List.set_eq_of_length_le (by omega)
      simp only [hset]
  · rw [getD_set_ne hjk, getD_set_ne (fun h => hjk h.symm),
      List.set_comm _ _ _ hjk]

lemma addPoint_comm (μ : Vec → Vec → ℚ) (cent : Mat) (a : Accum)
    (p q : Vec) :
    addPoint μ cent (addPoint μ cent a p) q =
      addPoint μ cent (addPoint μ cent a q) p := by
  simp only [addPoint, Accum.mk.injEq]
  exact ⟨set_f_comm vecAdd vecAdd_right_comm a.sums _ _ p q [],
    set_f_comm (· + ·) (fun s u v => by show s + u + v = s + v + u; omega)
      a.counts _ _ 1 1 0⟩

lemma accumulate_perm (μ : Vec → Vec → ℚ) (cent : Mat) {l₁ l₂ : Mat}
    (h : l₁.Perm l₂) (a : Accum) :
    accumulate μ cent l₁ a = accumulate μ cent l₂ a := by
  haveI : RightCommutative (addPoint μ cent) :=
    ⟨fun b p q => addPoint_comm μ cent b p q⟩
  exact h.foldl_eq a

lemma all_perm {α : Type*} {l₁ l₂ : List α} (h : l₁.Perm l₂)
    (f : α → Bool) : l₁.all f = l₂.all f := by
  induction h with
  | nil => rfl
  | cons x _ ih => simp [List.all_cons, ih]
  | swap x y l =>
    simp only [List.all_cons, ← Bool.and_assoc]
    rw [Bool.and_comm (f y) (f x)]
  | trans _ _ ih1 ih2 => exact ih1.trans ih2

/-- C9: for every partition of the dataset into chunks (one contiguous range
per worker), accumulating each chunk into a private accumulator and merging
the private accumulators into the shared zero-initialised one yields, in
exact arithmetic, exactly the same `(NewCentroids, Counts, cNorm,
distanceCalculations)` as a single sequential scan; moreover the result of
`Iterate` is invariant under any reordering of the points. -/
theorem C9_parallel_equals_sequential (μ : Vec → Vec → ℚ) (d : ℕ)
    (chunks : List Mat) (data cent : Mat) (dc0 : ℕ)
    (hflat : chunks.flatten = data) :
    IteratePar μ d chunks cent dc0 = Iterate μ d data cent dc0 ∧
    ∀ data' : Mat, data.Perm data' →
      Iterate μ d data' cent dc0 = Iterate μ d data cent dc0 := by
  subst hflat
  constructor
  · rw [IteratePar, Iterate]
    by_cases h : assertionOK μ chunks.flatten cent = true
    · rw [if_pos h, if_pos h]
      simp only [IterateParCore, IterateCore, parallelAccum_eq]
    · rw [if_neg (by simpa using h), if_neg (by simpa using h)]
  · intro data' hperm
    rw [Iterate, Iterate]
    have hall : assertionOK μ data' cent = assertionOK μ chunks.flatten cent := by
      rw [assertionOK, assertionOK]
      exact all_perm hperm.symm _
    rw [hall]
    have hcore : IterateCore μ d data' cent dc0 =
        IterateCore μ d chunks.flatten cent dc0 := by
      simp only [IterateCore]
      rw [accumulate_perm μ cent hperm.symm, hperm.length_eq]
    rw [hcore]

/-! ## Witnesses: the claim theorems applied at concrete inputs -/

/-- Witness for C1: one centroid `{0}`, one point `{1}`; the cluster is
nonempty and its new centroid is the mean of its assigned points. -/
theorem C1_new_centroids_are_means_witness :
    1 ≤ ([[0]] : Mat).length ∧ (0 : ℕ) < ([[0]] : Mat).length ∧
    0 < (IterateCore sqDist 1 [[1]] [[0]] 0).counts.getD 0 0 ∧
    (Iterate sqDist 1 [[1]] [[0]] 0 =
      some (IterateCore sqDist 1 [[1]] [[0]] 0) ∧
    (IterateCore sqDist 1 [[1]] [[0]] 0).counts.getD 0 0 =
      (assignedTo sqDist [[0]] 0 [[1]]).length ∧
    (IterateCore sqDist 1 [[1]] [[0]] 0).newCentroids.getD 0 [] =
      meanOf 1 (assignedTo sqDist [[0]] 0 [[1]])) :=
  ⟨by decide, by decide, by decide,
    C1_new_centroids_are_means sqDist 1 [[1]] [[0]] 0 0 (by decide) (by decide)
      (by decide)⟩

/-- Witness for C2: one centroid `{0}`, one point `{1}`, metric `sqDist`. -/
theorem C2_distortion_sqrt_zero_iff_fixed_witness :
    1 ≤ ([[0]] : Mat).length ∧
    (∀ c ∈ ([[0]] : Mat), c.length = 1) ∧
    (∀ p ∈ ([[1]] : Mat), p.length = 1) ∧
    (∀ a b : Vec, a.length = 1 → b.length = 1 → (sqDist a b = 0 ↔ a = b)) ∧
    (Iterate sqDist 1 [[1]] [[0]] 0 =
      some (IterateCore sqDist 1 [[1]] [[0]] 0) ∧
    (IterateCore sqDist 1 [[1]] [[0]] 0).cNorm =
      ∑ i ∈ Finset.range ([[0]] : Mat).length,
        sqDist (([[0]] : Mat).getD i [])
          ((IterateCore sqDist 1 [[1]] [[0]] 0).newCentroids.getD i []) ^ 2 ∧
    0 ≤ Real.sqrt ((IterateCore sqDist 1 [[1]] [[0]] 0).cNorm : ℝ) ∧
    (Real.sqrt ((IterateCore sqDist 1 [[1]] [[0]] 0).cNorm : ℝ) = 0 ↔
      (IterateCore sqDist 1 [[1]] [[0]] 0).newCentroids = [[0]])) :=
  ⟨by decide, by decide, by decide,
    fun a b ha hb => sqDist_eq_zero_iff ha hb,
    C2_distortion_sqrt_zero_iff_fixed sqDist 1 [[1]] [[0]] 0 (by decide)
      (by decide) (by decide) fun a b ha hb => sqDist_eq_zero_iff ha hb⟩

/-- Witness for C3: one centroid `{0}`, one point `{1}`; the counts sum to
`N = 1`. -/
theorem C3_counts_sum_eq_N_witness :
    1 ≤ ([[0]] : Mat).length ∧ 1 ≤ ([[1]] : Mat).length ∧
    (Iterate sqDist 1 [[1]] [[0]] 0 =
      some (IterateCore sqDist 1 [[1]] [[0]] 0) ∧
    (IterateCore sqDist 1 [[1]] [[0]] 0).counts.sum =
      ([[1]] : Mat).length) :=
  ⟨by decide, by decide,
    C3_counts_sum_eq_N sqDist 1 [[1]] [[0]] 0 (by decide) (by decide)⟩

/-- Witness for C4: two centroids `{0}` and `{10}` and the equidistant point
`{5}`; the selected index is the least argmin. -/
theorem C4_tie_break_lowest_index_witness :
    1 ≤ ([[0], [10]] : Mat).length ∧
    (closestCluster sqDist [5] [[0], [10]] < ([[0], [10]] : Mat).length ∧
    (∀ i < ([[0], [10]] : Mat).length,
      sqDist [5] (([[0], [10]] : Mat).getD
          (closestCluster sqDist [5] [[0], [10]]) []) ≤
        sqDist [5] (([[0], [10]] : Mat).getD i [])) ∧
    (∀ i < closestCluster sqDist [5] [[0], [10]],
      sqDist [5] (([[0], [10]] : Mat).getD
          (closestCluster sqDist [5] [[0], [10]]) []) <
        sqDist [5] (([[0], [10]] : Mat).getD i [])) ∧
    (∀ i < ([[0], [10]] : Mat).length,
      sqDist [5] (([[0], [10]] : Mat).getD i []) =
        sqDist [5] (([[0], [10]] : Mat).getD
          (closestCluster sqDist [5] [[0], [10]]) []) →
        closestCluster sqDist [5] [[0], [10]] ≤ i)) :=
  ⟨by decide, C4_tie_break_lowest_index sqDist [5] [[0], [10]] (by decide)⟩

/-- Witness for the amended C5: with no centroids and one point, the call
aborts through the assertion instead of returning a recoverable error. -/
theorem C5_no_validation_fatal_assert_witness :
    1 ≤ ([[0]] : Mat).length ∧
    ((∀ p : Vec, closestCluster sqDist p [] = ([] : Mat).length) ∧
    Iterate sqDist 1 [[0]] [] 0 = none) :=
  ⟨by decide, C5_no_validation_fatal_assert sqDist 1 [[0]] 0 (by decide)⟩

/-- Witness for C6: one centroid `{5}` and an empty dataset; the cluster is
empty and its new centroid is the zero vector. -/
theorem C6_empty_cluster_zero_vector_witness :
    1 ≤ ([[5]] : Mat).length ∧ (0 : ℕ) < ([[5]] : Mat).length ∧
    (IterateCore sqDist 1 [] [[5]] 0).counts.getD 0 0 = 0 ∧
    (Iterate sqDist 1 [] [[5]] 0 =
      some (IterateCore sqDist 1 [] [[5]] 0) ∧
    (IterateCore sqDist 1 [] [[5]] 0).newCentroids.getD 0 [] = vecZero 1) :=
  ⟨by decide, by decide, by decide,
    C6_empty_cluster_zero_vector sqDist 1 [] [[5]] 0 0 (by decide) (by decide)
      (by decide)⟩

/-- Witness for C7: one centroid, one point, counter starting at `7`;
the counter becomes `7 + 1*1 + 1`. -/
theorem C7_distance_calculations_witness :
    1 ≤ ([[0]] : Mat).length ∧
    (Iterate sqDist 1 [[1]] [[0]] 7 =
      some (IterateCore sqDist 1 [[1]] [[0]] 7) ∧
    (IterateCore sqDist 1 [[1]] [[0]] 7).distanceCalculations =
      7 + (([[0]] : Mat).length * ([[1]] : Mat).length +
        ([[0]] : Mat).length) ∧
    7 ≤ (IterateCore sqDist 1 [[1]] [[0]] 7).distanceCalculations) :=
  ⟨by decide, C7_distance_calculations sqDist 1 [[1]] [[0]] 7 (by decide)⟩

/-- Witness for C8: one centroid, one point; the scan selects index `0` and
the assertion passes. -/
theorem C8_assertion_unreachable_witness :
    1 ≤ ([[0]] : Mat).length ∧
    ((∀ p : Vec, closestCluster sqDist p [[0]] < ([[0]] : Mat).length ∧
      closestCluster sqDist p [[0]] ≠ ([[0]] : Mat).length) ∧
    assertionOK sqDist [[1]] [[0]] = true) :=
  ⟨by decide, C8_assertion_unreachable sqDist [[1]] [[0]] (by decide)⟩

/-- Witness for C9: two single-point chunks against one centroid; the
chunked call agrees with the sequential call. -/
theorem C9_parallel_equals_sequential_witness :
    ([[[0]], [[1]]] : List Mat).flatten = ([[0], [1]] : Mat) ∧
    (IteratePar sqDist 1 [[[0]], [[1]]] [[5]] 0 =
      Iterate sqDist 1 [[0], [1]] [[5]] 0 ∧
    ∀ data' : Mat, ([[0], [1]] : Mat).Perm data' →
      Iterate sqDist 1 data' [[5]] 0 = Iterate sqDist 1 [[0], [1]] [[5]] 0) :=
  ⟨rfl, C9_parallel_equals_sequential sqDist 1 [[[0]], [[1]]] [[0], [1]]
    [[5]] 0 rfl⟩

end ParallelNaiveKMeans
